import Mathlib

/-!
Verification of the video-chunk-processor coordination layer.

The Go sources are shallowly embedded as pure Lean functions:
* bytes are `Nat` values below 256, files are `List Nat`;
* the SHA-256 digest (used by both the chunk checksums and the
  16-hex-character file fingerprint) is implemented executably below;
* the checkpoint (Redis) store is an association list of string keys to
  string values, the object store an association list of object keys;
* `processFile`, the chunker `ChunkFile`, and the watcher filter
  (`filterFile` / `checkStableFiles`) are translated statement by
  statement from the source, with Boolean fault flags standing for the
  transient errors of the external stores.

Wall-clock data (chunk timestamps, TTLs) is outside the model: it never
influences any control-flow decision in the embedded functions.
-/

set_option maxRecDepth 10000

namespace VSP

/-! ### Definitions: the shallow embedding of the program -/

def M32 : Nat := 4294967296

def add32 (a b : Nat) : Nat := (a + b) % M32

def rotr32 (n a : Nat) : Nat := ((a >>> n) ||| (a <<< (32 - n))) % M32

def xor32 (a b : Nat) : Nat := Nat.xor a b

def and32 (a b : Nat) : Nat := Nat.land a b

def not32 (a : Nat) : Nat := Nat.xor a 4294967295

def shaCh (e f g : Nat) : Nat := xor32 (and32 e f) (and32 (not32 e) g)

def shaMaj (a b c : Nat) : Nat := xor32 (xor32 (and32 a b) (and32 a c)) (and32 b c)

def bigSigma0 (a : Nat) : Nat := xor32 (xor32 (rotr32 2 a) (rotr32 13 a)) (rotr32 22 a)

def bigSigma1 (e : Nat) : Nat := xor32 (xor32 (rotr32 6 e) (rotr32 11 e)) (rotr32 25 e)

def smallSigma0 (x : Nat) : Nat := xor32 (xor32 (rotr32 7 x) (rotr32 18 x)) ((x >>> 3))

def smallSigma1 (x : Nat) : Nat := xor32 (xor32 (rotr32 17 x) (rotr32 19 x)) ((x >>> 10))

/-- The eight working variables of the SHA-256 compression function. -/
structure H8 where
  a : Nat
  b : Nat
  c : Nat
  d : Nat
  e : Nat
  f : Nat
  g : Nat
  h : Nat
  deriving DecidableEq, Repr

def shaInit : H8 :=
  ⟨1779033703, 3144134277, 1013904242, 2773480762,
   1359893119, 2600822924, 528734635, 1541459225⟩

def shaKRow0 : List Nat :=
  [1116352408, 1899447441, 3049323471, 3921009573, 961987163, 1508970993, 2453635748, 2870763221]

def shaKRow1 : List Nat :=
  [3624381080, 310598401, 607225278, 1426881987, 1925078388, 2162078206, 2614888103, 3248222580]

def shaKRow2 : List Nat :=
  [3835390401, 4022224774, 264347078, 604807628, 770255983, 1249150122, 1555081692, 1996064986]

def shaKRow3 : List Nat :=
  [2554220882, 2821834349, 2952996808, 3210313671, 3336571891, 3584528711, 113926993, 338241895]

def shaKRow4 : List Nat :=
  [666307205, 773529912, 1294757372, 1396182291, 1695183700, 1986661051, 2177026350, 2456956037]

def shaKRow5 : List Nat :=
  [2730485921, 2820302411, 3259730800, 3345764771, 3516065817, 3600352804, 4094571909, 275423344]

def shaKRow6 : List Nat :=
  [430227734, 506948616, 659060556, 883997877, 958139571, 1322822218, 1537002063, 1747873779]

def shaKRow7 : List Nat :=
  [1955562222, 2024104815, 2227730452, 2361852424, 2428436474, 2756734187, 3204031479, 3329325298]

def shaK : List Nat :=
  shaKRow0 ++ shaKRow1 ++ shaKRow2 ++ shaKRow3 ++ shaKRow4 ++ shaKRow5 ++ shaKRow6 ++ shaKRow7

/-- One round of the SHA-256 compression function. -/
def shaRound (st : H8) (kw : Nat × Nat) : H8 :=
  let t1 := add32 (add32 (add32 st.h (bigSigma1 st.e)) (add32 (shaCh st.e st.f st.g) kw.1)) kw.2
  let t2 := add32 (bigSigma0 st.a) (shaMaj st.a st.b st.c)
  ⟨add32 t1 t2, st.a, st.b, st.c, add32 st.d t1, st.e, st.f, st.g⟩

/-- Message-schedule extension, keeping the already-computed words newest first. -/
def schedExtend (fuel : Nat) (rev : List Nat) : List Nat :=
  match fuel with
  | 0 => rev
  | fuel + 1 =>
    let w := add32 (add32 (smallSigma1 (rev.getD 1 0)) (rev.getD 6 0))
                   (add32 (smallSigma0 (rev.getD 14 0)) (rev.getD 15 0))
    schedExtend fuel (w :: rev)

/-- Big-endian 32-bit words from a byte list (groups of four). -/
def toWordsBE : List Nat → List Nat
  | b0 :: b1 :: b2 :: b3 :: rest =>
    (((b0 * 256 + b1) * 256 + b2) * 256 + b3) :: toWordsBE rest
  | _ => []

/-- Compress one 64-byte block into the running hash state. -/
def compressBlock (st : H8) (block : List Nat) : H8 :=
  let ws := (schedExtend 48 (toWordsBE block).reverse).reverse
  let e := (shaK.zip ws).foldl shaRound st
  ⟨add32 st.a e.a, add32 st.b e.b, add32 st.c e.c, add32 st.d e.d,
   add32 st.e e.e, add32 st.f e.f, add32 st.g e.g, add32 st.h e.h⟩

/-- Structural (fuel-indexed) block loop; the fuel is an upper bound on the
number of 64-byte blocks, so it never runs out on padded messages. -/
def processBlocksF : Nat → H8 → List Nat → H8
  | _, st, [] => st
  | 0, st, _ => st
  | fuel + 1, st, b :: rest =>
    processBlocksF fuel (compressBlock st ((b :: rest).take 64)) ((b :: rest).drop 64)

def processBlocks (st : H8) (bytes : List Nat) : H8 :=
  processBlocksF bytes.length st bytes

/-- The `len` big-endian bytes of `n`. -/
def natToBytesBE (len n : Nat) : List Nat :=
  match len with
  | 0 => []
  | l + 1 => natToBytesBE l (n / 256) ++ [n % 256]

/-- SHA-256 padding: a 0x80 byte, zeros to 56 mod 64, then the 64-bit bit length. -/
def padMessage (msg : List Nat) : List Nat :=
  msg ++ 0x80 :: List.replicate ((119 - msg.length % 64) % 64) 0
      ++ natToBytesBE 8 (8 * msg.length)

/-- The four big-endian bytes of a 32-bit word. -/
def wordBytes (w : Nat) : List Nat :=
  [w / 16777216 % 256, w / 65536 % 256, w / 256 % 256, w % 256]

/-- SHA-256 digest of a byte list, as a list of 32 bytes. -/
def sha256 (msg : List Nat) : List Nat :=
  let st := processBlocks shaInit (padMessage msg)
  wordBytes st.a ++ wordBytes st.b ++ wordBytes st.c ++ wordBytes st.d ++
  wordBytes st.e ++ wordBytes st.f ++ wordBytes st.g ++ wordBytes st.h

/-- Lowercase hexadecimal digit, as produced by Go `encoding/hex`. -/
def hexDigit (n : Nat) : Char :=
  if n < 10 then Char.ofNat (48 + n) else Char.ofNat (87 + n)

def byteHexChars (b : Nat) : List Char := [hexDigit (b / 16), hexDigit (b % 16)]

def bytesToHexChars (bs : List Nat) : List Char := (bs.map byteHexChars).flatten

/-- Composition of `hex.EncodeToString` with `sha256.Sum256`. -/
def sha256hex (msg : List Nat) : String := String.mk (bytesToHexChars (sha256 msg))

structure Chunk where
  Index : Nat
  Data : List Nat
  Checksum : String
  deriving DecidableEq, Repr

/-- The chunking loop; structural on a fuel that bounds the number of
iterations (each iteration consumes at least one byte when `0 < S`). -/
def chunkFileGo : Nat → Nat → List Nat → Nat → List Chunk
  | _, _, [], _ => []
  | 0, _, _, _ => []
  | fuel + 1, S, b :: rest, idx =>
    if S ≤ (b :: rest).length then
      ⟨idx, (b :: rest).take S, sha256hex ((b :: rest).take S)⟩ ::
        chunkFileGo fuel S ((b :: rest).drop S) (idx + 1)
    else
      [⟨idx, b :: rest, sha256hex (b :: rest)⟩]

def ChunkFile (data : List Nat) (S : Nat) : List Chunk :=
  chunkFileGo (data.length + 1) S data 0

def fileHash (file : Option (List Nat)) : String :=
  match file with
  | none => ""
  | some d => String.mk ((bytesToHexChars (sha256 (d.take 10485760))).take 16)

def kvGet : List (String × String) → String → Option String
  | [], _ => none
  | (k, v) :: rest, key => if k = key then some v else kvGet rest key

def kvSet (kv : List (String × String)) (key v : String) : List (String × String) :=
  (key, v) :: kv.filter (fun p => p.1 != key)

def kvDel (kv : List (String × String)) (key : String) : List (String × String) :=
  kv.filter (fun p => p.1 != key)

/-- Model of `fmt.Sprintf` with a zero-padded width-5 format, as used for chunk keys. -/
def pad5 (i : Nat) : String :=
  String.mk (List.replicate (5 - (toString i).length) (Char.ofNat 48)) ++ toString i

def hashKey (sid : String) : String := "file_hash:" ++ sid

def statusKey (sid : String) : String := "stream_status:" ++ sid

def progressKey (sid : String) : String := "stream_progress:" ++ sid

def chunkKey (sid : String) (i : Nat) : String :=
  "chunk_uploaded:" ++ sid ++ ":" ++ pad5 i

/-- The only error the pure store model itself produces: go-redis `redis.Nil`,
returned by `Get` when the key does not exist.  Transient I/O errors are
injected separately at the processor level. -/
inductive RedisErr where
  | nil
  deriving DecidableEq, Repr

/-- go-redis `client.Get(ctx, key).Result()`: a missing key yields the pair
`("", redis.Nil)`. -/
def redisGetResult (kv : List (String × String)) (key : String) :
    String × Option RedisErr :=
  match kvGet kv key with
  | some v => (v, none)
  | none => ("", some RedisErr.nil)

/-- Model of `redisStore.GetValue`: passes the client result (including `redis.Nil`)
through unchanged. -/
def GetValue (kv : List (String × String)) (key : String) : String × Option RedisErr :=
  redisGetResult kv key

/-- Model of `redisStore.GetStreamStatus`: `Get` on the status key, error passed
through unchanged. -/
def GetStreamStatus (kv : List (String × String)) (sid : String) :
    String × Option RedisErr :=
  redisGetResult kv (statusKey sid)

/-- Model of `redisStore.IsChunkUploaded`: maps `redis.Nil` to `(false, nil)` and
otherwise decodes the stored value as a truthy sentinel. -/
def IsChunkUploaded (kv : List (String × String)) (sid : String) (i : Nat) :
    Bool × Option RedisErr :=
  let r := redisGetResult kv (chunkKey sid i)
  if r.2 = some RedisErr.nil then (false, none)
  else (r.1 == "1" || r.1 == "true", r.2)

def objChunkKey (sid : String) (i : Nat) : String := sid ++ "/chunk-" ++ pad5 i

def objMetaKey (sid : String) : String := sid ++ "/metadata.json"

/-- Persisted per-chunk summary.  The Go struct also carries the wall-clock
upload `Timestamp`, which is outside the model. -/
structure ChunkMeta where
  Index : Nat
  Checksum : String
  deriving DecidableEq, Repr

/-- The metadata blob; `processFile` never sets the optional duration
estimate, so it is omitted.  `UploadMetadata` receives its JSON encoding,
which is injective in these fields. -/
structure Metadata where
  TotalSize : Nat
  Chunks : List ChunkMeta
  deriving DecidableEq, Repr

inductive ObjVal where
  | chunk (data : List Nat)
  | meta (m : Metadata)
  deriving DecidableEq, Repr

/-- Combined external state: checkpoint keys plus object-store objects. -/
structure SysState where
  kv : List (String × String)
  objects : List (String × ObjVal)
  deriving DecidableEq, Repr

def objPut (st : SysState) (key : String) (v : ObjVal) : SysState :=
  ⟨st.kv, (key, v) :: st.objects.filter (fun p => p.1 != key)⟩

def kvPut (st : SysState) (key v : String) : SysState :=
  ⟨kvSet st.kv key v, st.objects⟩

inductive Ev where
  | deleteStatusKey (ok : Bool)
  | setProgress (i : Nat) (ok : Bool)
  | setHash (h : String) (ok : Bool)
  | uploadChunk (i : Nat) (len : Nat) (ok : Bool)
  | setChunkUploaded (i : Nat) (ok : Bool)
  | uploadMetadata (m : Metadata) (ok : Bool)
  | setStatus (s : String) (ok : Bool)
  | setStreamTTL (ok : Bool)
  deriving DecidableEq, Repr

/-- Transient-failure injection for every fallible external call of a run.
A set flag makes the corresponding call return an error (leaving the
external state unchanged); the processor's error handling is translated
from the source. -/
structure Faults where
  getValueErr : Bool
  getStatusErr : Bool
  deleteStatusErr : Bool
  setProgress0Err : Bool
  setHashErr : Bool
  chunkOpenErr : Bool
  isChunkErr : Nat → Bool
  uploadChunkErr : Nat → Bool
  setChunkErr : Nat → Bool
  setProgressErr : Nat → Bool
  metaErr : Bool
  setStatusErr : Bool
  ttlErr : Bool

/-- The fault-free environment. -/
def Faults.noFaults : Faults :=
  ⟨false, false, false, false, false, false,
   fun _ => false, fun _ => false, fun _ => false, fun _ => false,
   false, false, false⟩

/-- Accumulator of the chunk loop: external state, the event trace so far,
and the Go locals `chunkMetas` and `totalSize`. -/
structure LoopAcc where
  st : SysState
  evs : List Ev
  metas : List ChunkMeta
  total : Nat

/-- One iteration of the `for chunk := range chunks` loop of `processFile`:
checkpoint lookup (a transient error skips the chunk), skip when already
uploaded, upload (a failure skips the bookkeeping), then checkpoint write,
metadata accumulation, and progress write. -/
def chunkStep (sid : String) (f : Faults) (acc : LoopAcc) (c : Chunk) : LoopAcc :=
  if f.isChunkErr c.Index then acc
  else if (IsChunkUploaded acc.st.kv sid c.Index).1 then acc
  else if f.uploadChunkErr c.Index then
    ⟨acc.st, acc.evs ++ [Ev.uploadChunk c.Index c.Data.length false], acc.metas, acc.total⟩
  else
    let st1 := objPut acc.st (objChunkKey sid c.Index) (ObjVal.chunk c.Data)
    -- go-redis stores the literal `true` as the string "1"
    let st2 := if f.setChunkErr c.Index then st1 else kvPut st1 (chunkKey sid c.Index) "1"
    let st3 := if f.setProgressErr c.Index then st2
               else kvPut st2 (progressKey sid) (toString c.Index)
    ⟨st3,
     acc.evs ++ [Ev.uploadChunk c.Index c.Data.length true,
                 Ev.setChunkUploaded c.Index (!f.setChunkErr c.Index),
                 Ev.setProgress c.Index (!f.setProgressErr c.Index)],
     acc.metas ++ [⟨c.Index, c.Checksum⟩],
     acc.total + c.Data.length⟩

/-- The `if prevHash != "" && prevHash != hash` block of `processFile`:
delete the status key and reset the stream progress to 0 (old
`chunk_uploaded` keys are intentionally not purged). -/
def invalidateIfChanged (sid : String) (f : Faults) (st : SysState)
    (prevHash hash : String) : SysState × List Ev :=
  if prevHash ≠ "" ∧ prevHash ≠ hash then
    let stA := if f.deleteStatusErr then st else ⟨kvDel st.kv (statusKey sid), st.objects⟩
    let stB := if f.setProgress0Err then stA else kvPut stA (progressKey sid) "0"
    (stB, [Ev.deleteStatusKey (!f.deleteStatusErr), Ev.setProgress 0 (!f.setProgress0Err)])
  else (st, [])

/-- The chunk loop followed by metadata upload, status write and TTL:
everything `processFile` does after the chunk producer opened
successfully.  `SetStreamTTL` only schedules wall-clock expiry of the
status key; the call is recorded but has no effect on the modelled
state. -/
def finishRun (sid : String) (f : Faults) (d : List Nat) (chunkSize : Nat)
    (st2 : SysState) (evs2 : List Ev) : SysState × List Ev :=
  let acc := (ChunkFile d chunkSize).foldl (chunkStep sid f) ⟨st2, evs2, [], 0⟩
  let meta : Metadata := ⟨acc.total, acc.metas⟩
  let st4 := if f.metaErr then acc.st else objPut acc.st (objMetaKey sid) (ObjVal.meta meta)
  let st5 := if f.setStatusErr then st4 else kvPut st4 (statusKey sid) "completed"
  (st5, acc.evs ++ [Ev.uploadMetadata meta (!f.metaErr),
                    Ev.setStatus "completed" (!f.setStatusErr),
                    Ev.setStreamTTL (!f.ttlErr)])

/-- Model of `app.processFile`, translated statement by statement.  `sid` is
`filepath.Base(file)`; the file argument is `none` for an unreadable path.
Both `GetValue` and `GetStreamStatus` appear with their error discarded
(`prevHash, _ := …`), so a transient read error produces the empty string
exactly like a missing key. -/
def processFile (sid : String) (file : Option (List Nat)) (chunkSize : Nat)
    (f : Faults) (st : SysState) : SysState × List Ev :=
  let hash := fileHash file
  if hash = "" then (st, [])
  else
    let prevHash := if f.getValueErr then "" else (GetValue st.kv (hashKey sid)).1
    let status := if f.getStatusErr then "" else (GetStreamStatus st.kv sid).1
    if prevHash = hash ∧ status = "completed" then (st, [])
    else
      let stepOne := invalidateIfChanged sid f st prevHash hash
      let st2 := if f.setHashErr then stepOne.1 else kvPut stepOne.1 (hashKey sid) hash
      let evs2 := stepOne.2 ++ [Ev.setHash hash (!f.setHashErr)]
      if f.chunkOpenErr then (st2, evs2)
      else finishRun sid f (file.getD []) chunkSize st2 evs2

def isUploadChunkEv : Ev → Bool
  | Ev.uploadChunk _ _ _ => true
  | _ => false

def isUploadMetadataEv : Ev → Bool
  | Ev.uploadMetadata _ _ => true
  | _ => false

/-- An environment in which the object-store upload of chunk 0 fails and
everything else succeeds. -/
def chunk0UploadFails : Faults :=
  ⟨false, false, false, false, false, false,
   fun _ => false, fun i => i == 0, fun _ => false, fun _ => false,
   false, false, false⟩

/-- The checkpoint state a completed first run leaves for a 3-byte file. -/
def secondRunState : SysState :=
  ⟨[(hashKey "v.mp4", fileHash (some [1, 2, 3])), (statusKey "v.mp4", "completed"),
    (chunkKey "v.mp4" 0, "1"), (progressKey "v.mp4", "0")], []⟩

/-- The invalidation scenario: stored fingerprint `"deadbeefdeadbeef"`,
current file `[1, 2, 3]`. -/
def staleHashState : SysState :=
  ⟨[(hashKey "v.mp4", "deadbeefdeadbeef"), (statusKey "v.mp4", "completed")], []⟩

/-- Every `SetChunkUploaded` call in a trace is preceded by a successful
`UploadChunk` call for the same index. -/
def CkptAfterUpload (evs : List Ev) : Prop :=
  ∀ n i ok, evs[n]? = some (Ev.setChunkUploaded i ok) →
    ∃ m : Nat, ∃ len : Nat, m < n ∧ evs[m]? = some (Ev.uploadChunk i len true)

/-- Indices of the successful `UploadChunk` calls of a trace, in order. -/
def succUploadIdxs (evs : List Ev) : List Nat :=
  evs.filterMap fun e =>
    match e with
    | Ev.uploadChunk i _ true => some i
    | _ => none

/-- Byte lengths of the successful `UploadChunk` calls of a trace, in order. -/
def succUploadLens (evs : List Ev) : List Nat :=
  evs.filterMap fun e =>
    match e with
    | Ev.uploadChunk _ len true => some len
    | _ => none

/-- A run in which chunk 1 was already checkpointed: only chunk 0 is
uploaded, and the metadata must describe chunk 0 alone. -/
def chunk1DoneState : SysState := ⟨[(chunkKey "v.mp4" 1, "1")], []⟩

/-- The characters after the last `/`. -/
def lastComponent (cs : List Char) : List Char :=
  cs.foldl (fun acc ch => if ch = Char.ofNat 47 then [] else acc ++ [ch]) []

def basename (p : String) : String := String.mk (lastComponent p.data)

/-- The suffix from the last `.` (dot included), empty when there is none. -/
def extFrom (cs : List Char) : List Char :=
  cs.foldl
    (fun acc ch =>
      if ch = Char.ofNat 46 then [Char.ofNat 46]
      else if acc.isEmpty then [] else acc ++ [ch])
    []

/-- Go `filepath.Ext`: the suffix of the final path element from its last
dot, empty when the element has no dot. -/
def fileExt (p : String) : String := String.mk (extFrom (basename p).data)

/-- ASCII lowercasing, sufficient for the dot-letter extensions compared
here (Go uses `strings.ToLower`). -/
def lowerChar (c : Char) : Char :=
  if 65 ≤ c.toNat ∧ c.toNat ≤ 90 then Char.ofNat (c.toNat + 32) else c

def lowerStr (s : String) : String := String.mk (s.data.map lowerChar)

/-- Model of `isAllowedExt`: the lowercased extension is a member of the configured
format list (which `config.Load` already lowercased). -/
def isAllowedExt (file : String) (allowedExts : List String) : Bool :=
  allowedExts.contains (lowerStr (fileExt file))

/-- Model of `watcher.filterFile`: suppress (return `false`) exactly when the stored
fingerprint matches the live one and the stream status is `"completed"`;
both reads discard their error. -/
def filterFile (kv : List (String × String)) (fs : String → Option (List Nat))
    (file : String) : Bool :=
  let hash := fileHash (fs file)
  let sid := basename file
  let status := (GetStreamStatus kv sid).1
  let prevHash := (GetValue kv (hashKey sid)).1
  !(prevHash == hash && status == "completed")

/-- Model of `watcher.checkStableFiles`: one tick over the `seen` map.  A quiescent
entry (older than the debounce window) is removed from the map and, if its
extension is allowed and `filterFile` lets it through, its path is emitted
to the worker channel.  The pair is (emitted paths, remaining map). -/
def checkStableFiles (kv : List (String × String)) (fs : String → Option (List Nat))
    (formats : List String) (debounce now : Nat) :
    List (String × Nat) → List String × List (String × Nat)
  | [] => ([], [])
  | (file, last) :: rest =>
    let r := checkStableFiles kv fs formats debounce now rest
    if debounce < now - last then
      if isAllowedExt file formats && filterFile kv fs file
      then (file :: r.1, r.2)
      else (r.1, r.2)
    else (r.1, (file, last) :: r.2)

/-- The suppression scenario: a completed, unchanged 3-byte `v.mp4`. -/
def completedWatchState : List (String × String) :=
  [(hashKey "v.mp4", fileHash (some [9, 9, 9])), (statusKey "v.mp4", "completed")]

/-- The content oracle of the suppression scenario. -/
def completedWatchFs : String → Option (List Nat) :=
  fun p => if p == "in/v.mp4" then some [9, 9, 9] else none

/-! ### Theorems -/

example : sha256hex [0x61, 0x62, 0x63] =
    "ba7816bf8f01cfea414140de5dae2223b00361a396177a9cb410ff61f20015ad" := by decide

example : sha256hex [] =
    "e3b0c44298fc1c149afbf4c8996fb92427ae41e4649b934ca495991b7852b855" := by decide

/-- Full characterization of the chunking loop: chunk `k` is the `S`-byte
window of the data starting at offset `k * S`. -/
theorem chunkFileGo_eq (fuel S : Nat) (hS : 0 < S) :
    ∀ d : List Nat, ∀ idx : Nat, d.length < fuel →
      chunkFileGo fuel S d idx =
        (List.range ((d.length + S - 1) / S)).map
          (fun k => ⟨idx + k, (d.drop (k * S)).take S,
                     sha256hex ((d.drop (k * S)).take S)⟩) := by
  induction fuel with
  | zero => intro d idx h; omega
  | succ fuel ih =>
    intro d idx h
    match d with
    | [] =>
      have h0 : (([] : List Nat).length + S - 1) / S = 0 := by
        apply Nat.div_eq_of_lt
        simp
        omega
      rw [h0]
      rfl
    | b :: rest =>
      by_cases hlen : S ≤ (b :: rest).length
      case pos =>
        have hdlen : ((b :: rest).drop S).length = (b :: rest).length - S := by
          simp
        have hceil : ((b :: rest).length + S - 1) / S
            = (((b :: rest).drop S).length + S - 1) / S + 1 := by
          have h1 : (b :: rest).length + S - 1 = ((b :: rest).length - 1) + S := by
            have : 1 ≤ (b :: rest).length := by simp
            omega
          have h2 : ((b :: rest).drop S).length + S - 1 = (b :: rest).length - 1 := by
            rw [hdlen]; omega
          rw [h1, Nat.add_div_right _ hS, h2]
        have hfuel : ((b :: rest).drop S).length < fuel := by
          rw [hdlen]
          simp only [List.length_cons] at h ⊢
          omega
        rw [chunkFileGo, if_pos hlen, ih _ (idx + 1) hfuel, hceil, List.range_succ_eq_map]
        rw [List.map_cons, List.map_map]
        congr 1
        · simp
        · apply List.map_congr_left
          intro k _
          have hdrop : (((b :: rest).drop S).drop (k * S)) = (b :: rest).drop ((k + 1) * S) := by
            rw [List.drop_drop]
            congr 1
            ring
          simp only [Function.comp_apply, Nat.succ_eq_add_one, hdrop]
          have hidx : idx + 1 + k = idx + (k + 1) := by omega
          rw [hidx]
      case neg =>
        have hone : ((b :: rest).length + S - 1) / S = 1 := by
          have hp : 1 ≤ (b :: rest).length := by simp
          have h1 : (b :: rest).length + S - 1 = ((b :: rest).length - 1) + S := by omega
          rw [h1, Nat.add_div_right _ hS]
          have h2 : ((b :: rest).length - 1) / S = 0 := by
            apply Nat.div_eq_of_lt
            omega
          omega
        have hr1 : List.range 1 = [0] := rfl
        rw [chunkFileGo, if_neg hlen, hone, hr1, List.map_cons, List.map_nil]
        have htake : (b :: rest).take S = b :: rest :=
          List.take_of_length_le (by omega)
        simp [htake]

theorem ChunkFile_eq (data : List Nat) (S : Nat) (hS : 0 < S) :
    ChunkFile data S =
      (List.range ((data.length + S - 1) / S)).map
        (fun k => ⟨k, (data.drop (k * S)).take S,
                   sha256hex ((data.drop (k * S)).take S)⟩) := by
  rw [ChunkFile, chunkFileGo_eq _ _ hS _ _ (by omega)]
  apply List.map_congr_left
  intro k _
  simp

/-- Bounds on the index of an emitted chunk, from the ceiling division. -/
theorem chunk_window_bounds (N S k : Nat) (hS : 0 < S) (hk : k < (N + S - 1) / S) :
    k * S < N := by
  have hdm := Nat.div_add_mod (N + S - 1) S
  have hm : (N + S - 1) % S < S := Nat.mod_lt _ hS
  have hkk : k + 1 ≤ (N + S - 1) / S := hk
  have h1 : (k + 1) * S ≤ ((N + S - 1) / S) * S := Nat.mul_le_mul_right _ hkk
  have h2 : ((N + S - 1) / S) * S ≤ N + S - 1 := Nat.div_mul_le_self _ _
  have h3 : (k + 1) * S = k * S + S := by ring
  omega

/-- C4: for a nonempty file of `N` bytes and chunk size `S > 0`, the producer
emits exactly `⌈N/S⌉` chunks, with indices `0, 1, …, ⌈N/S⌉ - 1` in ascending
order; the first `⌊N/S⌋` chunks have length `S`, and the final chunk has
length `N mod S` when that is nonzero and length `S` otherwise. -/
theorem ChunkFile_shape (data : List Nat) (S : Nat) (hS : 0 < S) (hN : 0 < data.length) :
    (ChunkFile data S).length = (data.length + S - 1) / S ∧
    (ChunkFile data S).map Chunk.Index = List.range ((data.length + S - 1) / S) ∧
    (∀ c ∈ ChunkFile data S, c.Index < data.length / S → c.Data.length = S) ∧
    (∀ c ∈ ChunkFile data S, c.Index + 1 = (data.length + S - 1) / S →
       c.Data.length = if data.length % S = 0 then S else data.length % S) := by
  refine ⟨?_, ?_, ?_, ?_⟩
  · rw [ChunkFile_eq _ _ hS]
    simp
  · rw [ChunkFile_eq _ _ hS, List.map_map]
    have : (Chunk.Index ∘ fun k => (⟨k, (data.drop (k * S)).take S,
        sha256hex ((data.drop (k * S)).take S)⟩ : Chunk)) = fun k => k := rfl
    rw [this]
    exact List.map_id' _
  · rw [ChunkFile_eq _ _ hS]
    intro c hc hidx
    obtain ⟨k, hk, rfl⟩ := List.mem_map.mp hc
    simp only [List.length_take, List.length_drop]
    simp only at hidx
    have hfull : (k + 1) * S ≤ data.length := by
      have h1 : k + 1 ≤ data.length / S := hidx
      have h2 : (k + 1) * S ≤ (data.length / S) * S := Nat.mul_le_mul_right _ h1
      have h3 : (data.length / S) * S ≤ data.length := Nat.div_mul_le_self _ _
      omega
    have h3 : (k + 1) * S = k * S + S := by ring
    omega
  · rw [ChunkFile_eq _ _ hS]
    intro c hc hidx
    obtain ⟨k, hk, rfl⟩ := List.mem_map.mp hc
    simp only [List.length_take, List.length_drop]
    simp only at hidx
    -- from `k + 1 = ⌈N/S⌉` derive `k·S < N ≤ k·S + S`
    have hdm := Nat.div_add_mod (data.length + S - 1) S
    have hm : (data.length + S - 1) % S < S := Nat.mod_lt _ hS
    rw [← hidx] at hdm
    have hlow : k * S < data.length := by
      have h3 : S * (k + 1) = k * S + S := by ring
      omega
    have hhigh : data.length ≤ k * S + S := by
      have h3 : S * (k + 1) = k * S + S := by ring
      omega
    have hdm2 := Nat.div_add_mod data.length S
    have hm2 : data.length % S < S := Nat.mod_lt _ hS
    by_cases hr : data.length % S = 0
    · rw [if_pos hr]
      -- N is a multiple of S, so the final window is a full one
      have hq : S * (data.length / S) = data.length := by omega
      have hklt : k < data.length / S := by
        by_contra hge
        push_neg at hge
        have : (data.length / S) * S ≤ k * S := Nat.mul_le_mul_right _ hge
        have : S * (data.length / S) = (data.length / S) * S := by ring
        omega
      have : (k + 1) * S ≤ (data.length / S) * S := Nat.mul_le_mul_right _ hklt
      have h4 : (k + 1) * S = k * S + S := by ring
      have h5 : S * (data.length / S) = (data.length / S) * S := by ring
      omega
    · rw [if_neg hr]
      -- the final window holds exactly the `N mod S` remaining bytes
      have hkq : k = data.length / S := by
        have hle : k ≤ data.length / S := by
          by_contra hgt
          push_neg at hgt
          have h1 : data.length / S + 1 ≤ k := hgt
          have h2 : (data.length / S + 1) * S ≤ k * S := Nat.mul_le_mul_right _ h1
          have h3 : (data.length / S + 1) * S = S * (data.length / S) + S := by ring
          omega
        have hge : data.length / S ≤ k := by
          by_contra hlt
          push_neg at hlt
          have h1 : k + 1 ≤ data.length / S := hlt
          have h2 : (k + 1) * S ≤ (data.length / S) * S := Nat.mul_le_mul_right _ h1
          have h3 : (k + 1) * S = k * S + S := by ring
          have h4 : (data.length / S) * S = S * (data.length / S) := by ring
          omega
        omega
      rw [hkq]
      have h5 : S * (data.length / S) = (data.length / S) * S := by ring
      omega

/-- Witness for `ChunkFile_shape`: a 16-byte file with chunk size 4. -/
theorem ChunkFile_shape_witness :
    0 < (4 : Nat) ∧ 0 < (List.replicate 16 (7 : Nat)).length ∧
    ((ChunkFile (List.replicate 16 7) 4).length
        = ((List.replicate 16 (7 : Nat)).length + 4 - 1) / 4 ∧
     (ChunkFile (List.replicate 16 7) 4).map Chunk.Index
        = List.range (((List.replicate 16 (7 : Nat)).length + 4 - 1) / 4) ∧
     (∀ c ∈ ChunkFile (List.replicate 16 7) 4,
        c.Index < (List.replicate 16 (7 : Nat)).length / 4 → c.Data.length = 4) ∧
     (∀ c ∈ ChunkFile (List.replicate 16 7) 4,
        c.Index + 1 = ((List.replicate 16 (7 : Nat)).length + 4 - 1) / 4 →
          c.Data.length = if (List.replicate 16 (7 : Nat)).length % 4 = 0
            then 4 else (List.replicate 16 (7 : Nat)).length % 4)) :=
  ⟨by decide, by decide, ChunkFile_shape (List.replicate 16 7) 4 (by decide) (by decide)⟩

theorem chunkFileGo_checksum (fuel : Nat) :
    ∀ S d idx, ∀ c ∈ chunkFileGo fuel S d idx, c.Checksum = sha256hex c.Data := by
  induction fuel with
  | zero =>
    intro S d idx c hc
    match d with
    | [] => simp [chunkFileGo] at hc
    | b :: rest => simp [chunkFileGo] at hc
  | succ fuel ih =>
    intro S d idx c hc
    match d with
    | [] => simp [chunkFileGo] at hc
    | b :: rest =>
      rw [chunkFileGo] at hc
      by_cases hlen : S ≤ (b :: rest).length
      · rw [if_pos hlen] at hc
        rcases List.mem_cons.mp hc with h | h
        · rw [h]
        · exact ih S _ (idx + 1) c h
      · rw [if_neg hlen] at hc
        rcases List.mem_cons.mp hc with h | h
        · rw [h]
        · simp at h

/-- C9: every chunk the producer emits carries as `Checksum` the lowercase
hexadecimal SHA-256 of its `Data` bytes. -/
theorem ChunkFile_checksum (data : List Nat) (S : Nat) (c : Chunk)
    (hc : c ∈ ChunkFile data S) : c.Checksum = sha256hex c.Data :=
  chunkFileGo_checksum (data.length + 1) S data 0 c hc

/-- Witness for `ChunkFile_checksum`: the first chunk of a 3-byte file with
chunk size 2. -/
theorem ChunkFile_checksum_witness :
    (⟨0, [1, 2], sha256hex [1, 2]⟩ : Chunk) ∈ ChunkFile [1, 2, 3] 2 ∧
    (⟨0, [1, 2], sha256hex [1, 2]⟩ : Chunk).Checksum
      = sha256hex (⟨0, [1, 2], sha256hex [1, 2]⟩ : Chunk).Data :=
  ⟨by decide, ChunkFile_checksum [1, 2, 3] 2 _ (by decide)⟩

theorem sha256_length (msg : List Nat) : (sha256 msg).length = 32 := by
  simp [sha256, wordBytes]

theorem bytesToHexChars_length (bs : List Nat) :
    (bytesToHexChars bs).length = 2 * bs.length := by
  induction bs with
  | nil => simp [bytesToHexChars]
  | cons b rest ih =>
    simp only [bytesToHexChars, List.map_cons, List.flatten_cons, List.length_append,
      List.length_cons, byteHexChars] at ih ⊢
    simp at ih ⊢
    omega

/-- A readable file always fingerprints to a 16-character string. -/
theorem fileHash_some_length (d : List Nat) : (fileHash (some d)).length = 16 := by
  simp only [fileHash, String.length]
  simp [List.length_take, bytesToHexChars_length, sha256_length]

theorem fileHash_some_ne_empty (d : List Nat) : fileHash (some d) ≠ "" := by
  intro h
  have h1 : (fileHash (some d)).length = 16 := fileHash_some_length d
  rw [h] at h1
  simp at h1

theorem kvGet_kvSet_self (kv : List (String × String)) (k v : String) :
    kvGet (kvSet kv k v) k = some v := by
  simp [kvSet, kvGet]

theorem kvGet_filter_ne (kv : List (String × String)) (k1 k2 : String) (h : k2 ≠ k1) :
    kvGet (kv.filter (fun p => p.1 != k1)) k2 = kvGet kv k2 := by
  induction kv with
  | nil => rfl
  | cons p rest ih =>
    by_cases hp : p.1 = k1
    · have hne : p.1 ≠ k2 := by rw [hp]; exact fun e => h e.symm
      simp [kvGet, hp, hne, ih, Ne.symm h]
    · simp only [List.filter_cons]
      have : (p.1 != k1) = true := by simp [hp]
      rw [this]
      simp only [kvGet]
      by_cases he : p.1 = k2
      · simp [he]
      · simp [he, ih]

theorem kvGet_kvSet_ne (kv : List (String × String)) (k1 k2 v : String) (h : k2 ≠ k1) :
    kvGet (kvSet kv k1 v) k2 = kvGet kv k2 := by
  simp only [kvSet, kvGet]
  rw [if_neg (fun e => h e.symm)]
  exact kvGet_filter_ne kv k1 k2 h

theorem kvGet_kvDel_ne (kv : List (String × String)) (k1 k2 : String) (h : k2 ≠ k1) :
    kvGet (kvDel kv k1) k2 = kvGet kv k2 :=
  kvGet_filter_ne kv k1 k2 h

theorem pad5_length_ge (i : Nat) : 5 ≤ (pad5 i).length := by
  simp only [pad5, String.length_append]
  have h : (String.mk (List.replicate (5 - (toString i).length) (Char.ofNat 48))).length
      = 5 - (toString i).length := by
    simp only [String.length, List.length_replicate]
  omega

theorem length_hashKey (sid : String) : (hashKey sid).length = 10 + sid.length := by
  have h : ("file_hash:" : String).length = 10 := rfl
  simp [hashKey, String.length_append, h]

theorem length_statusKey (sid : String) : (statusKey sid).length = 14 + sid.length := by
  have h : ("stream_status:" : String).length = 14 := rfl
  simp [statusKey, String.length_append, h]

theorem length_progressKey (sid : String) : (progressKey sid).length = 16 + sid.length := by
  have h : ("stream_progress:" : String).length = 16 := rfl
  simp [progressKey, String.length_append, h]

theorem length_chunkKey (sid : String) (i : Nat) :
    21 + sid.length ≤ (chunkKey sid i).length := by
  have h15 : ("chunk_uploaded:" : String).length = 15 := rfl
  have h1 : (":" : String).length = 1 := rfl
  have hp := pad5_length_ge i
  simp [chunkKey, String.length_append, h15, h1]
  omega

theorem ne_of_length_ne {a b : String} (h : a.length ≠ b.length) : a ≠ b :=
  fun e => h (congrArg String.length e)

theorem hashKey_ne_statusKey (sid : String) : hashKey sid ≠ statusKey sid :=
  ne_of_length_ne (by rw [length_hashKey, length_statusKey]; omega)

theorem hashKey_ne_progressKey (sid : String) : hashKey sid ≠ progressKey sid :=
  ne_of_length_ne (by rw [length_hashKey, length_progressKey]; omega)

theorem hashKey_ne_chunkKey (sid : String) (i : Nat) : hashKey sid ≠ chunkKey sid i :=
  ne_of_length_ne (by have := length_chunkKey sid i; rw [length_hashKey]; omega)

theorem statusKey_ne_progressKey (sid : String) : statusKey sid ≠ progressKey sid :=
  ne_of_length_ne (by rw [length_statusKey, length_progressKey]; omega)

theorem statusKey_ne_chunkKey (sid : String) (i : Nat) : statusKey sid ≠ chunkKey sid i :=
  ne_of_length_ne (by have := length_chunkKey sid i; rw [length_statusKey]; omega)

theorem chunkStep_kv_frame (sid : String) (f : Faults) (acc : LoopAcc) (c : Chunk)
    (k : String) (hp : k ≠ progressKey sid) (hc : ∀ i, k ≠ chunkKey sid i) :
    kvGet (chunkStep sid f acc c).st.kv k = kvGet acc.st.kv k := by
  by_cases h1 : f.isChunkErr c.Index = true
  · simp [chunkStep, h1]
  by_cases h2 : (IsChunkUploaded acc.st.kv sid c.Index).1 = true
  · simp [chunkStep, h1, h2]
  by_cases h3 : f.uploadChunkErr c.Index = true
  · simp [chunkStep, h1, h2, h3]
  simp only [chunkStep, h1, h2, h3, if_false, Bool.false_eq_true]
  by_cases h4 : f.setChunkErr c.Index = true <;>
    by_cases h5 : f.setProgressErr c.Index = true <;>
      simp [h4, h5, kvPut, objPut, kvGet_kvSet_ne _ _ _ _ (hc c.Index),
            kvGet_kvSet_ne _ _ _ _ hp]

theorem foldl_chunkStep_kv_frame (sid : String) (f : Faults) (cs : List Chunk) :
    ∀ acc : LoopAcc, ∀ k : String, k ≠ progressKey sid → (∀ i, k ≠ chunkKey sid i) →
      kvGet (cs.foldl (chunkStep sid f) acc).st.kv k = kvGet acc.st.kv k := by
  induction cs with
  | nil => intro acc k _ _; rfl
  | cons c rest ih =>
    intro acc k hp hc
    rw [List.foldl_cons, ih _ k hp hc, chunkStep_kv_frame sid f acc c k hp hc]

theorem chunkStep_evs_append (sid : String) (f : Faults) (acc : LoopAcc) (c : Chunk) :
    ∃ tail, (chunkStep sid f acc c).evs = acc.evs ++ tail := by
  by_cases h1 : f.isChunkErr c.Index = true
  · exact ⟨[], by simp [chunkStep, h1]⟩
  by_cases h2 : (IsChunkUploaded acc.st.kv sid c.Index).1 = true
  · exact ⟨[], by simp [chunkStep, h1, h2]⟩
  by_cases h3 : f.uploadChunkErr c.Index = true
  · exact ⟨[Ev.uploadChunk c.Index c.Data.length false], by simp [chunkStep, h1, h2, h3]⟩
  exact ⟨[Ev.uploadChunk c.Index c.Data.length true,
          Ev.setChunkUploaded c.Index (!f.setChunkErr c.Index),
          Ev.setProgress c.Index (!f.setProgressErr c.Index)],
         by simp [chunkStep, h1, h2, h3]⟩

theorem foldl_chunkStep_evs_append (sid : String) (f : Faults) (cs : List Chunk) :
    ∀ acc : LoopAcc, ∃ tail, (cs.foldl (chunkStep sid f) acc).evs = acc.evs ++ tail := by
  induction cs with
  | nil => intro acc; exact ⟨[], by simp⟩
  | cons c rest ih =>
    intro acc
    obtain ⟨t1, h1⟩ := chunkStep_evs_append sid f acc c
    obtain ⟨t2, h2⟩ := ih (chunkStep sid f acc c)
    exact ⟨t1 ++ t2, by rw [List.foldl_cons, h2, h1, List.append_assoc]⟩

theorem kvGet_of_result_ne_empty (kv : List (String × String)) (k v : String)
    (hne : v ≠ "") (h : (redisGetResult kv k).1 = v) : kvGet kv k = some v := by
  cases hk : kvGet kv k with
  | none =>
    simp only [redisGetResult, hk] at h
    exact absurd h.symm hne
  | some w =>
    simp only [redisGetResult, hk] at h
    exact congrArg some h

/-- The idempotent early return: matching fingerprint plus completed status
leave the state untouched and produce no external calls. -/
theorem processFile_skip (sid : String) (d : List Nat) (S : Nat) (f : Faults) (st : SysState)
    (hskip : (if f.getValueErr then "" else (GetValue st.kv (hashKey sid)).1) = fileHash (some d)
      ∧ (if f.getStatusErr then "" else (GetStreamStatus st.kv sid).1) = "completed") :
    processFile sid (some d) S f st = (st, []) := by
  simp only [processFile]
  rw [if_neg (fileHash_some_ne_empty d), if_pos hskip]

/-- When the skip test fails and the chunk producer opens, `processFile` is
the invalidation step, the hash write, and `finishRun`. -/
theorem processFile_eq_finishRun (sid : String) (d : List Nat) (S : Nat) (f : Faults)
    (st : SysState)
    (hskip : ¬((if f.getValueErr then "" else (GetValue st.kv (hashKey sid)).1) = fileHash (some d)
      ∧ (if f.getStatusErr then "" else (GetStreamStatus st.kv sid).1) = "completed"))
    (hopen : f.chunkOpenErr = false) :
    processFile sid (some d) S f st =
      finishRun sid f d S
        (if f.setHashErr then
           (invalidateIfChanged sid f st
             (if f.getValueErr then "" else (GetValue st.kv (hashKey sid)).1)
             (fileHash (some d))).1
         else kvPut (invalidateIfChanged sid f st
             (if f.getValueErr then "" else (GetValue st.kv (hashKey sid)).1)
             (fileHash (some d))).1 (hashKey sid) (fileHash (some d)))
        ((invalidateIfChanged sid f st
             (if f.getValueErr then "" else (GetValue st.kv (hashKey sid)).1)
             (fileHash (some d))).2 ++ [Ev.setHash (fileHash (some d)) (!f.setHashErr)]) := by
  simp only [processFile]
  rw [if_neg (fileHash_some_ne_empty d), if_neg hskip, hopen]
  simp

/-- Unless the status write itself is failed, `finishRun` always ends with
`stream_status = "completed"`. -/
theorem finishRun_status (sid : String) (f : Faults) (d : List Nat) (S : Nat)
    (st2 : SysState) (evs2 : List Ev) (hstat : f.setStatusErr = false) :
    kvGet (finishRun sid f d S st2 evs2).1.kv (statusKey sid) = some "completed" := by
  simp only [finishRun, hstat]
  simp [kvPut, kvGet_kvSet_self]

/-- Lemma: `finishRun` writes only the status, progress and chunk-uploaded keys. -/
theorem finishRun_kv_other (sid : String) (f : Faults) (d : List Nat) (S : Nat)
    (st2 : SysState) (evs2 : List Ev) (k : String)
    (hk1 : k ≠ statusKey sid) (hk2 : k ≠ progressKey sid) (hk3 : ∀ i, k ≠ chunkKey sid i) :
    kvGet (finishRun sid f d S st2 evs2).1.kv k = kvGet st2.kv k := by
  have hacc := foldl_chunkStep_kv_frame sid f (ChunkFile d S) ⟨st2, evs2, [], 0⟩ k hk2 hk3
  by_cases hstat : f.setStatusErr = true <;>
    by_cases hmeta : f.metaErr = true <;>
      simp [finishRun, hstat, hmeta, kvPut, objPut, kvGet_kvSet_ne _ _ _ _ hk1, hacc]

/-- Lemma: `finishRun` only appends to the event trace it is given. -/
theorem finishRun_evs (sid : String) (f : Faults) (d : List Nat) (S : Nat)
    (st2 : SysState) (evs2 : List Ev) :
    ∃ tail, (finishRun sid f d S st2 evs2).2 = evs2 ++ tail := by
  obtain ⟨t, ht⟩ := foldl_chunkStep_evs_append sid f (ChunkFile d S) ⟨st2, evs2, [], 0⟩
  simp only [finishRun]
  rw [ht, List.append_assoc]
  exact ⟨_, rfl⟩

/-- After a fault-free run on a readable file, the stored fingerprint is the
file's current one and the status is `"completed"` — whichever control
path the run took. -/
theorem processFile_noFaults_post (sid : String) (d : List Nat) (S : Nat) (st0 : SysState) :
    kvGet (processFile sid (some d) S Faults.noFaults st0).1.kv (hashKey sid)
      = some (fileHash (some d)) ∧
    kvGet (processFile sid (some d) S Faults.noFaults st0).1.kv (statusKey sid)
      = some "completed" := by
  by_cases hskip :
      (if Faults.noFaults.getValueErr then "" else (GetValue st0.kv (hashKey sid)).1)
        = fileHash (some d)
      ∧ (if Faults.noFaults.getStatusErr then "" else (GetStreamStatus st0.kv sid).1)
        = "completed"
  · rw [processFile_skip sid d S Faults.noFaults st0 hskip]
    have h1 : (redisGetResult st0.kv (hashKey sid)).1 = fileHash (some d) := by
      have := hskip.1
      simpa [Faults.noFaults, GetValue] using this
    have h2 : (redisGetResult st0.kv (statusKey sid)).1 = "completed" := by
      have := hskip.2
      simpa [Faults.noFaults, GetStreamStatus] using this
    exact ⟨kvGet_of_result_ne_empty _ _ _ (fileHash_some_ne_empty d) h1,
           kvGet_of_result_ne_empty _ _ _ (by simp) h2⟩
  · rw [processFile_eq_finishRun sid d S Faults.noFaults st0 hskip rfl]
    constructor
    · rw [finishRun_kv_other _ _ _ _ _ _ (hashKey sid) (hashKey_ne_statusKey sid)
          (hashKey_ne_progressKey sid) (hashKey_ne_chunkKey sid)]
      simp [Faults.noFaults, kvPut, kvGet_kvSet_self]
    · exact finishRun_status _ _ _ _ _ _ rfl

/-- C1 counterexample: a run in which the upload of chunk 0 fails still sets
`stream_status` to `"completed"`. -/
theorem upload_failure_still_completed :
    Ev.uploadChunk 0 3 false
        ∈ (processFile "v.mp4" (some [1, 2, 3]) 4 chunk0UploadFails ⟨[], []⟩).2 ∧
    kvGet (processFile "v.mp4" (some [1, 2, 3]) 4 chunk0UploadFails ⟨[], []⟩).1.kv
        (statusKey "v.mp4") = some "completed" := by
  constructor <;> decide

/-- C1 (amended): the status is written as `"completed"` at the end of every
run that reaches the chunk loop — the fingerprint was computed, the
idempotent skip did not fire, and the chunk producer opened — regardless of
chunk-upload, checkpoint or metadata failures; only those early exits (or a
failure of the status write itself) leave the status unwritten. -/
theorem processFile_always_completes (sid : String) (d : List Nat) (S : Nat)
    (f : Faults) (st : SysState)
    (hskip : ¬((if f.getValueErr then "" else (GetValue st.kv (hashKey sid)).1) = fileHash (some d)
      ∧ (if f.getStatusErr then "" else (GetStreamStatus st.kv sid).1) = "completed"))
    (hopen : f.chunkOpenErr = false) (hstat : f.setStatusErr = false) :
    kvGet (processFile sid (some d) S f st).1.kv (statusKey sid) = some "completed" := by
  rw [processFile_eq_finishRun sid d S f st hskip hopen]
  exact finishRun_status _ _ _ _ _ _ hstat

/-- Witness for `processFile_always_completes`: chunk 0's upload fails, the
run still completes. -/
theorem processFile_always_completes_witness :
    (¬((if chunk0UploadFails.getValueErr then ""
        else (GetValue (SysState.mk [] []).kv (hashKey "v.mp4")).1) = fileHash (some [1, 2, 3])
      ∧ (if chunk0UploadFails.getStatusErr then ""
        else (GetStreamStatus (SysState.mk [] []).kv "v.mp4").1) = "completed")) ∧
    chunk0UploadFails.chunkOpenErr = false ∧
    chunk0UploadFails.setStatusErr = false ∧
    kvGet (processFile "v.mp4" (some [1, 2, 3]) 4 chunk0UploadFails ⟨[], []⟩).1.kv
        (statusKey "v.mp4") = some "completed" :=
  ⟨by decide, rfl, rfl,
   processFile_always_completes "v.mp4" [1, 2, 3] 4 chunk0UploadFails ⟨[], []⟩
     (by decide) rfl rfl⟩

/-- C3: if the first run left the stored fingerprint equal to the file's
current one and the status `"completed"`, a second fault-free run on the
unchanged file is a no-op: no `UploadChunk` calls, and both stores exactly
as the first run left them. -/
theorem processFile_second_run_noop (sid : String) (d : List Nat) (S : Nat) (st1 : SysState)
    (h1 : kvGet st1.kv (hashKey sid) = some (fileHash (some d)))
    (h2 : kvGet st1.kv (statusKey sid) = some "completed") :
    processFile sid (some d) S Faults.noFaults st1 = (st1, []) ∧
    (processFile sid (some d) S Faults.noFaults st1).2.countP isUploadChunkEv = 0 := by
  have hskip :
      (if Faults.noFaults.getValueErr then "" else (GetValue st1.kv (hashKey sid)).1)
        = fileHash (some d)
      ∧ (if Faults.noFaults.getStatusErr then "" else (GetStreamStatus st1.kv sid).1)
        = "completed" := by
    constructor <;> simp [GetValue, GetStreamStatus, redisGetResult, h1, h2, Faults.noFaults]
  have h := processFile_skip sid d S Faults.noFaults st1 hskip
  refine ⟨h, ?_⟩
  rw [h]
  rfl

/-- Witness for `processFile_second_run_noop`. -/
theorem processFile_second_run_noop_witness :
    (kvGet secondRunState.kv (hashKey "v.mp4") = some (fileHash (some [1, 2, 3])) ∧
     kvGet secondRunState.kv (statusKey "v.mp4") = some "completed") ∧
    (processFile "v.mp4" (some [1, 2, 3]) 4 Faults.noFaults secondRunState
        = (secondRunState, []) ∧
     (processFile "v.mp4" (some [1, 2, 3]) 4 Faults.noFaults secondRunState).2.countP
        isUploadChunkEv = 0) :=
  ⟨⟨by decide, by decide⟩,
   processFile_second_run_noop "v.mp4" [1, 2, 3] 4 secondRunState (by decide) (by decide)⟩

/-- C6 counterexample: after a completed fault-free run on a 16-byte file
with chunk size 4, the second run performs zero `UploadChunk` calls — but
also zero `UploadMetadata` calls, not one, and in fact no external calls at
all. -/
theorem second_run_zero_metadata_calls :
    (processFile "v.mp4" (some (List.replicate 16 7)) 4 Faults.noFaults
        (processFile "v.mp4" (some (List.replicate 16 7)) 4 Faults.noFaults ⟨[], []⟩).1).2.countP
      isUploadChunkEv = 0 ∧
    (processFile "v.mp4" (some (List.replicate 16 7)) 4 Faults.noFaults
        (processFile "v.mp4" (some (List.replicate 16 7)) 4 Faults.noFaults ⟨[], []⟩).1).2.countP
      isUploadMetadataEv = 0 := by
  constructor <;> decide

/-- C6 (amended): a second fault-free run on the unchanged file performs
zero `UploadChunk` calls and zero `UploadMetadata` calls (the idempotent
early return skips the metadata re-upload), and the stream status remains
`"completed"`. -/
theorem second_run_skips_uploads_and_metadata (sid : String) (d : List Nat) (S : Nat)
    (st0 : SysState) :
    ((processFile sid (some d) S Faults.noFaults
        (processFile sid (some d) S Faults.noFaults st0).1).2.countP isUploadChunkEv = 0) ∧
    ((processFile sid (some d) S Faults.noFaults
        (processFile sid (some d) S Faults.noFaults st0).1).2.countP isUploadMetadataEv = 0) ∧
    kvGet (processFile sid (some d) S Faults.noFaults
        (processFile sid (some d) S Faults.noFaults st0).1).1.kv (statusKey sid)
      = some "completed" := by
  obtain ⟨hh, hs⟩ := processFile_noFaults_post sid d S st0
  have hskip :
      (if Faults.noFaults.getValueErr then ""
        else (GetValue (processFile sid (some d) S Faults.noFaults st0).1.kv (hashKey sid)).1)
        = fileHash (some d)
      ∧ (if Faults.noFaults.getStatusErr then ""
        else (GetStreamStatus (processFile sid (some d) S Faults.noFaults st0).1.kv sid).1)
        = "completed" := by
    refine ⟨?_, ?_⟩
    · show (GetValue (processFile sid (some d) S Faults.noFaults st0).1.kv (hashKey sid)).1
        = fileHash (some d)
      simp [GetValue, redisGetResult, hh]
    · show (GetStreamStatus (processFile sid (some d) S Faults.noFaults st0).1.kv sid).1
        = "completed"
      simp [GetStreamStatus, redisGetResult, hs]
  have h := processFile_skip sid d S Faults.noFaults _ hskip
  rw [h]
  exact ⟨rfl, rfl, hs⟩

/-- C8: when the stored fingerprint is non-empty and differs from the
current one, the run's very first two external calls delete the status key
and reset the stream progress to 0 — in particular both happen before any
chunk upload. -/
theorem hash_change_resets_before_upload (sid : String) (d : List Nat) (S : Nat)
    (st : SysState) (p : String)
    (hp : kvGet st.kv (hashKey sid) = some p) (hne : p ≠ "")
    (hneq : p ≠ fileHash (some d)) :
    ∃ rest, (processFile sid (some d) S Faults.noFaults st).2
      = Ev.deleteStatusKey true :: Ev.setProgress 0 true :: rest := by
  have hPH : (if Faults.noFaults.getValueErr then ""
      else (GetValue st.kv (hashKey sid)).1) = p := by
    simp [GetValue, redisGetResult, hp, Faults.noFaults]
  have hskip :
      ¬((if Faults.noFaults.getValueErr then "" else (GetValue st.kv (hashKey sid)).1)
          = fileHash (some d)
        ∧ (if Faults.noFaults.getStatusErr then "" else (GetStreamStatus st.kv sid).1)
          = "completed") := by
    intro hcon
    exact hneq (hPH.symm.trans hcon.1)
  rw [processFile_eq_finishRun sid d S Faults.noFaults st hskip rfl]
  obtain ⟨tail, ht⟩ := finishRun_evs sid Faults.noFaults d S _ _
  rw [ht]
  have hinv : (invalidateIfChanged sid Faults.noFaults st
      (if Faults.noFaults.getValueErr then "" else (GetValue st.kv (hashKey sid)).1)
      (fileHash (some d))).2
      = [Ev.deleteStatusKey true, Ev.setProgress 0 true] := by
    rw [hPH]
    simp only [invalidateIfChanged]
    rw [if_pos ⟨hne, hneq⟩]
    rfl
  rw [hinv, List.append_assoc]
  exact ⟨_, rfl⟩

/-- Witness for `hash_change_resets_before_upload`. -/
theorem hash_change_resets_before_upload_witness :
    (kvGet staleHashState.kv (hashKey "v.mp4") = some "deadbeefdeadbeef" ∧
     "deadbeefdeadbeef" ≠ "" ∧ "deadbeefdeadbeef" ≠ fileHash (some [1, 2, 3])) ∧
    (∃ rest, (processFile "v.mp4" (some [1, 2, 3]) 4 Faults.noFaults staleHashState).2
      = Ev.deleteStatusKey true :: Ev.setProgress 0 true :: rest) :=
  ⟨⟨by decide, by decide, by decide⟩,
   hash_change_resets_before_upload "v.mp4" [1, 2, 3] 4 staleHashState "deadbeefdeadbeef"
     (by decide) (by decide) (by decide)⟩

theorem ckptAfterUpload_nil : CkptAfterUpload [] := by
  intro n i ok h
  simp at h

theorem ckpt_of_noSetChunk (evs : List Ev)
    (h : ∀ e ∈ evs, ∀ i ok, e ≠ Ev.setChunkUploaded i ok) : CkptAfterUpload evs := by
  intro n i ok hn
  exact absurd rfl (h _ (List.getElem?_mem hn) i ok)

theorem ckptAfterUpload_append (evs blk : List Ev) (h1 : CkptAfterUpload evs)
    (h2 : ∀ j i ok, blk[j]? = some (Ev.setChunkUploaded i ok) →
      ∃ m : Nat, ∃ len : Nat, m < j ∧ blk[m]? = some (Ev.uploadChunk i len true)) :
    CkptAfterUpload (evs ++ blk) := by
  intro n i ok h
  by_cases hn : n < evs.length
  · rw [List.getElem?_append_left hn] at h
    obtain ⟨m, len, hm, hget⟩ := h1 n i ok h
    exact ⟨m, len, hm, by rw [List.getElem?_append_left (lt_trans hm hn)]; exact hget⟩
  · push_neg at hn
    rw [List.getElem?_append_right hn] at h
    obtain ⟨m, len, hm, hget⟩ := h2 _ i ok h
    refine ⟨evs.length + m, len, by omega, ?_⟩
    rw [List.getElem?_append_right (by omega)]
    have he : evs.length + m - evs.length = m := by omega
    rw [he]
    exact hget

theorem ckptAfterUpload_append_noSetChunk (evs blk : List Ev) (h1 : CkptAfterUpload evs)
    (h : ∀ e ∈ blk, ∀ i ok, e ≠ Ev.setChunkUploaded i ok) :
    CkptAfterUpload (evs ++ blk) := by
  apply ckptAfterUpload_append evs blk h1
  intro j i ok hj
  exact absurd rfl (h _ (List.getElem?_mem hj) i ok)

/-- The three-event block of a successful upload is internally well ordered:
its checkpoint write is preceded by its successful upload. -/
theorem successBlock_good (i len : Nat) (b1 b2 : Bool) :
    ∀ j i2 ok, [Ev.uploadChunk i len true, Ev.setChunkUploaded i b1,
        Ev.setProgress i b2][j]? = some (Ev.setChunkUploaded i2 ok) →
      ∃ m : Nat, ∃ len2 : Nat, m < j ∧ [Ev.uploadChunk i len true, Ev.setChunkUploaded i b1,
        Ev.setProgress i b2][m]? = some (Ev.uploadChunk i2 len2 true) := by
  intro j i2 ok hj
  match j with
  | 0 => simp at hj
  | 1 =>
    simp at hj
    exact ⟨0, len, by omega, by rw [hj.1]; rfl⟩
  | 2 => simp at hj
  | n + 3 => simp at hj

theorem chunkStep_ckpt (sid : String) (f : Faults) (acc : LoopAcc) (c : Chunk)
    (h : CkptAfterUpload acc.evs) : CkptAfterUpload (chunkStep sid f acc c).evs := by
  by_cases h1 : f.isChunkErr c.Index = true
  · simpa [chunkStep, h1] using h
  by_cases h2 : (IsChunkUploaded acc.st.kv sid c.Index).1 = true
  · simpa [chunkStep, h1, h2] using h
  by_cases h3 : f.uploadChunkErr c.Index = true
  · have he : (chunkStep sid f acc c).evs
        = acc.evs ++ [Ev.uploadChunk c.Index c.Data.length false] := by
      simp [chunkStep, h1, h2, h3]
    rw [he]
    apply ckptAfterUpload_append_noSetChunk _ _ h
    intro e hmem i ok
    simp at hmem
    rw [hmem]
    simp
  · have he : (chunkStep sid f acc c).evs
        = acc.evs ++ [Ev.uploadChunk c.Index c.Data.length true,
            Ev.setChunkUploaded c.Index (!f.setChunkErr c.Index),
            Ev.setProgress c.Index (!f.setProgressErr c.Index)] := by
      simp [chunkStep, h1, h2, h3]
    rw [he]
    exact ckptAfterUpload_append _ _ h (successBlock_good c.Index c.Data.length _ _)

theorem foldl_chunkStep_ckpt (sid : String) (f : Faults) (cs : List Chunk) :
    ∀ acc : LoopAcc, CkptAfterUpload acc.evs →
      CkptAfterUpload ((cs.foldl (chunkStep sid f) acc)).evs := by
  induction cs with
  | nil => intro acc h; exact h
  | cons c rest ih =>
    intro acc h
    rw [List.foldl_cons]
    exact ih _ (chunkStep_ckpt sid f acc c h)

theorem finishRun_ckpt (sid : String) (f : Faults) (d : List Nat) (S : Nat)
    (st2 : SysState) (evs2 : List Ev) (h : CkptAfterUpload evs2) :
    CkptAfterUpload (finishRun sid f d S st2 evs2).2 := by
  simp only [finishRun]
  apply ckptAfterUpload_append_noSetChunk
  · exact foldl_chunkStep_ckpt sid f (ChunkFile d S) ⟨st2, evs2, [], 0⟩ h
  · intro e hmem i ok
    simp at hmem
    rcases hmem with he | he | he <;> rw [he] <;> simp

theorem invalidate_evs_noSetChunk (sid : String) (f : Faults) (st : SysState)
    (ph h : String) :
    ∀ e ∈ (invalidateIfChanged sid f st ph h).2, ∀ i ok, e ≠ Ev.setChunkUploaded i ok := by
  intro e he i ok
  simp only [invalidateIfChanged] at he
  by_cases hc : ph ≠ "" ∧ ph ≠ h
  · rw [if_pos hc] at he
    simp at he
    rcases he with he | he <;> rw [he] <;> simp
  · rw [if_neg hc] at he
    simp at he

/-- The events before the chunk loop (invalidation plus the hash write)
contain no checkpoint-bit writes. -/
theorem preLoop_evs_noSetChunk (sid : String) (f : Faults) (st : SysState)
    (ph hsh : String) (b : Bool) :
    ∀ e ∈ (invalidateIfChanged sid f st ph hsh).2 ++ [Ev.setHash hsh b],
      ∀ i ok, e ≠ Ev.setChunkUploaded i ok := by
  intro e he i ok
  rcases List.mem_append.mp he with he | he
  · exact invalidate_evs_noSetChunk sid f st ph hsh e he i ok
  · simp at he
    rw [he]
    simp

/-- The open-failure path: the run stops right after the hash write. -/
theorem processFile_openErr (sid : String) (d : List Nat) (S : Nat) (f : Faults)
    (st : SysState)
    (hskip : ¬((if f.getValueErr then "" else (GetValue st.kv (hashKey sid)).1) = fileHash (some d)
      ∧ (if f.getStatusErr then "" else (GetStreamStatus st.kv sid).1) = "completed"))
    (hopen : f.chunkOpenErr = true) :
    processFile sid (some d) S f st =
      (if f.setHashErr then
         (invalidateIfChanged sid f st
           (if f.getValueErr then "" else (GetValue st.kv (hashKey sid)).1)
           (fileHash (some d))).1
       else kvPut (invalidateIfChanged sid f st
           (if f.getValueErr then "" else (GetValue st.kv (hashKey sid)).1)
           (fileHash (some d))).1 (hashKey sid) (fileHash (some d)),
       (invalidateIfChanged sid f st
           (if f.getValueErr then "" else (GetValue st.kv (hashKey sid)).1)
           (fileHash (some d))).2 ++ [Ev.setHash (fileHash (some d)) (!f.setHashErr)]) := by
  simp only [processFile]
  rw [if_neg (fileHash_some_ne_empty d), if_neg hskip, hopen]
  simp

theorem processFile_ckpt (sid : String) (file : Option (List Nat)) (S : Nat)
    (f : Faults) (st : SysState) : CkptAfterUpload (processFile sid file S f st).2 := by
  match file with
  | none =>
    have h : processFile sid none S f st = (st, []) := by
      simp [processFile, fileHash]
    rw [h]
    exact ckptAfterUpload_nil
  | some d =>
    by_cases hskip :
        (if f.getValueErr then "" else (GetValue st.kv (hashKey sid)).1) = fileHash (some d)
        ∧ (if f.getStatusErr then "" else (GetStreamStatus st.kv sid).1) = "completed"
    · rw [processFile_skip sid d S f st hskip]
      exact ckptAfterUpload_nil
    · by_cases hopen : f.chunkOpenErr = true
      · rw [processFile_openErr sid d S f st hskip hopen]
        exact ckpt_of_noSetChunk _ (preLoop_evs_noSetChunk sid f st _ _ _)
      · rw [processFile_eq_finishRun sid d S f st hskip (Bool.not_eq_true _ |>.mp hopen)]
        apply finishRun_ckpt
        exact ckpt_of_noSetChunk _ (preLoop_evs_noSetChunk sid f st _ _ _)

/-- C2: in every run, whenever the processor calls
`SetChunkUploaded(stream_id, i)`, an `UploadChunk(stream_id, i, data)` call
for the same chunk succeeded earlier in that run: the checkpoint bit is
written only after the object write. -/
theorem setChunkUploaded_only_after_upload (sid : String) (file : Option (List Nat))
    (S : Nat) (f : Faults) (st : SysState) (n i : Nat) (ok : Bool)
    (h : (processFile sid file S f st).2[n]? = some (Ev.setChunkUploaded i ok)) :
    ∃ m : Nat, ∃ len : Nat, m < n ∧
      (processFile sid file S f st).2[m]? = some (Ev.uploadChunk i len true) := by
  have h2 := processFile_ckpt sid file S f st
  unfold CkptAfterUpload at h2
  exact h2 n i ok h

/-- Witness for `setChunkUploaded_only_after_upload`: in a fresh run on a
5-byte file, the checkpoint write for chunk 0 sits at position 2, after the
successful upload at position 1. -/
theorem setChunkUploaded_only_after_upload_witness :
    (processFile "v.mp4" (some [1, 2, 3, 4, 5]) 4 Faults.noFaults ⟨[], []⟩).2[2]?
        = some (Ev.setChunkUploaded 0 true) ∧
    ∃ m : Nat, ∃ len : Nat, m < 2 ∧
      (processFile "v.mp4" (some [1, 2, 3, 4, 5]) 4 Faults.noFaults ⟨[], []⟩).2[m]?
        = some (Ev.uploadChunk 0 len true) :=
  ⟨by decide,
   setChunkUploaded_only_after_upload "v.mp4" (some [1, 2, 3, 4, 5]) 4 Faults.noFaults
     ⟨[], []⟩ 2 0 true (by decide)⟩

theorem chunkStep_meta_inv (sid : String) (f : Faults) (acc : LoopAcc) (c : Chunk)
    (h1 : acc.metas.map ChunkMeta.Index = succUploadIdxs acc.evs)
    (h2 : acc.total = (succUploadLens acc.evs).sum)
    (h3 : ∀ m ok, Ev.uploadMetadata m ok ∉ acc.evs) :
    ((chunkStep sid f acc c).metas.map ChunkMeta.Index
        = succUploadIdxs (chunkStep sid f acc c).evs) ∧
    ((chunkStep sid f acc c).total = (succUploadLens (chunkStep sid f acc c).evs).sum) ∧
    (∀ m ok, Ev.uploadMetadata m ok ∉ (chunkStep sid f acc c).evs) := by
  by_cases b1 : f.isChunkErr c.Index = true
  · refine ⟨?_, ?_, ?_⟩ <;> simp [chunkStep, b1, h1, h2, h3]
  by_cases b2 : (IsChunkUploaded acc.st.kv sid c.Index).1 = true
  · refine ⟨?_, ?_, ?_⟩ <;> simp [chunkStep, b1, b2, h1, h2, h3]
  by_cases b3 : f.uploadChunkErr c.Index = true
  · have he : (chunkStep sid f acc c).evs
        = acc.evs ++ [Ev.uploadChunk c.Index c.Data.length false] := by
      simp [chunkStep, b1, b2, b3]
    have hms : (chunkStep sid f acc c).metas = acc.metas := by
      simp [chunkStep, b1, b2, b3]
    have htt : (chunkStep sid f acc c).total = acc.total := by
      simp [chunkStep, b1, b2, b3]
    rw [he, hms, htt]
    refine ⟨?_, ?_, ?_⟩
    · rw [succUploadIdxs, List.filterMap_append]
      have hz : succUploadIdxs [Ev.uploadChunk c.Index c.Data.length false] = [] := rfl
      rw [succUploadIdxs] at hz h1
      rw [hz, h1, List.append_nil]
    · rw [succUploadLens, List.filterMap_append]
      have hz : succUploadLens [Ev.uploadChunk c.Index c.Data.length false] = [] := rfl
      rw [succUploadLens] at hz h2
      rw [hz, h2, List.append_nil]
    · intro m ok hmem
      rcases List.mem_append.mp hmem with hmm | hmm
      · exact h3 m ok hmm
      · simp at hmm
  · have he : (chunkStep sid f acc c).evs
        = acc.evs ++ [Ev.uploadChunk c.Index c.Data.length true,
            Ev.setChunkUploaded c.Index (!f.setChunkErr c.Index),
            Ev.setProgress c.Index (!f.setProgressErr c.Index)] := by
      simp [chunkStep, b1, b2, b3]
    have hms : (chunkStep sid f acc c).metas
        = acc.metas ++ [⟨c.Index, c.Checksum⟩] := by
      simp [chunkStep, b1, b2, b3]
    have htt : (chunkStep sid f acc c).total = acc.total + c.Data.length := by
      simp [chunkStep, b1, b2, b3]
    rw [he, hms, htt]
    refine ⟨?_, ?_, ?_⟩
    · rw [succUploadIdxs, List.filterMap_append, List.map_append]
      have hz : succUploadIdxs [Ev.uploadChunk c.Index c.Data.length true,
          Ev.setChunkUploaded c.Index (!f.setChunkErr c.Index),
          Ev.setProgress c.Index (!f.setProgressErr c.Index)] = [c.Index] := rfl
      rw [succUploadIdxs] at hz h1
      rw [hz, h1]
      rfl
    · rw [succUploadLens, List.filterMap_append, List.sum_append]
      have hz : succUploadLens [Ev.uploadChunk c.Index c.Data.length true,
          Ev.setChunkUploaded c.Index (!f.setChunkErr c.Index),
          Ev.setProgress c.Index (!f.setProgressErr c.Index)] = [c.Data.length] := rfl
      rw [succUploadLens] at hz h2
      rw [hz, h2]
      simp
    · intro m ok hmem
      rcases List.mem_append.mp hmem with hmm | hmm
      · exact h3 m ok hmm
      · simp at hmm

theorem foldl_chunkStep_meta_inv (sid : String) (f : Faults) (cs : List Chunk) :
    ∀ acc : LoopAcc,
      (acc.metas.map ChunkMeta.Index = succUploadIdxs acc.evs) →
      (acc.total = (succUploadLens acc.evs).sum) →
      (∀ m ok, Ev.uploadMetadata m ok ∉ acc.evs) →
      ((cs.foldl (chunkStep sid f) acc).metas.map ChunkMeta.Index
          = succUploadIdxs (cs.foldl (chunkStep sid f) acc).evs) ∧
      ((cs.foldl (chunkStep sid f) acc).total
          = (succUploadLens (cs.foldl (chunkStep sid f) acc).evs).sum) ∧
      (∀ m ok, Ev.uploadMetadata m ok ∉ (cs.foldl (chunkStep sid f) acc).evs) := by
  induction cs with
  | nil => intro acc h1 h2 h3; exact ⟨h1, h2, h3⟩
  | cons c rest ih =>
    intro acc h1 h2 h3
    rw [List.foldl_cons]
    obtain ⟨g1, g2, g3⟩ := chunkStep_meta_inv sid f acc c h1 h2 h3
    exact ih _ g1 g2 g3

theorem finishRun_metadata (sid : String) (f : Faults) (d : List Nat) (S : Nat)
    (st2 : SysState) (evs2 : List Ev) (m : Metadata) (ok : Bool)
    (hpre1 : succUploadIdxs evs2 = []) (hpre2 : succUploadLens evs2 = [])
    (hpre3 : ∀ m2 ok2, Ev.uploadMetadata m2 ok2 ∉ evs2)
    (hm : Ev.uploadMetadata m ok ∈ (finishRun sid f d S st2 evs2).2) :
    m.Chunks.map ChunkMeta.Index = succUploadIdxs (finishRun sid f d S st2 evs2).2 ∧
    m.TotalSize = (succUploadLens (finishRun sid f d S st2 evs2).2).sum := by
  obtain ⟨g1, g2, g3⟩ := foldl_chunkStep_meta_inv sid f (ChunkFile d S) ⟨st2, evs2, [], 0⟩
    (by rw [hpre1]; rfl) (by rw [hpre2]; rfl) hpre3
  simp only [finishRun] at hm ⊢
  have hmeta : m = ⟨(List.foldl (chunkStep sid f) ⟨st2, evs2, [], 0⟩ (ChunkFile d S)).total,
      (List.foldl (chunkStep sid f) ⟨st2, evs2, [], 0⟩ (ChunkFile d S)).metas⟩ := by
    rcases List.mem_append.mp hm with hmm | hmm
    · exact absurd hmm (g3 m ok)
    · simp at hmm
      exact hmm.1
  have htail1 : succUploadIdxs [Ev.uploadMetadata
      (⟨(List.foldl (chunkStep sid f) ⟨st2, evs2, [], 0⟩ (ChunkFile d S)).total,
        (List.foldl (chunkStep sid f) ⟨st2, evs2, [], 0⟩ (ChunkFile d S)).metas⟩ : Metadata)
      (!f.metaErr), Ev.setStatus "completed" (!f.setStatusErr),
      Ev.setStreamTTL (!f.ttlErr)] = [] := rfl
  have htail2 : succUploadLens [Ev.uploadMetadata
      (⟨(List.foldl (chunkStep sid f) ⟨st2, evs2, [], 0⟩ (ChunkFile d S)).total,
        (List.foldl (chunkStep sid f) ⟨st2, evs2, [], 0⟩ (ChunkFile d S)).metas⟩ : Metadata)
      (!f.metaErr), Ev.setStatus "completed" (!f.setStatusErr),
      Ev.setStreamTTL (!f.ttlErr)] = [] := rfl
  constructor
  · rw [succUploadIdxs, List.filterMap_append]
    rw [succUploadIdxs] at htail1 g1
    rw [htail1, List.append_nil, ← g1, hmeta]
  · rw [succUploadLens, List.filterMap_append]
    rw [succUploadLens] at htail2 g2
    rw [htail2, List.append_nil, ← g2, hmeta]

theorem preLoop_evs_noMeta (sid : String) (f : Faults) (st : SysState)
    (ph hsh : String) (b : Bool) :
    ∀ m2 ok2, Ev.uploadMetadata m2 ok2
      ∉ (invalidateIfChanged sid f st ph hsh).2 ++ [Ev.setHash hsh b] := by
  intro m2 ok2 hmem
  rcases List.mem_append.mp hmem with hmm | hmm
  · simp only [invalidateIfChanged] at hmm
    by_cases hc : ph ≠ "" ∧ ph ≠ hsh
    · rw [if_pos hc] at hmm
      simp at hmm
    · rw [if_neg hc] at hmm
      simp at hmm
  · simp at hmm

theorem preLoop_succIdxs_nil (sid : String) (f : Faults) (st : SysState)
    (ph hsh : String) (b : Bool) :
    succUploadIdxs ((invalidateIfChanged sid f st ph hsh).2 ++ [Ev.setHash hsh b]) = []
    ∧ succUploadLens ((invalidateIfChanged sid f st ph hsh).2 ++ [Ev.setHash hsh b]) = [] := by
  simp only [invalidateIfChanged]
  by_cases hc : ph ≠ "" ∧ ph ≠ hsh
  · rw [if_pos hc]
    exact ⟨rfl, rfl⟩
  · rw [if_neg hc]
    exact ⟨rfl, rfl⟩

/-- C10: whatever `processFile` hands to `UploadMetadata` lists exactly the
chunks whose upload succeeded during this run (skipped, errored and failed
chunks are absent), and its `total_size` is the sum of the lengths of those
chunks only — not the size of the whole file. -/
theorem metadata_lists_only_uploaded (sid : String) (file : Option (List Nat)) (S : Nat)
    (f : Faults) (st : SysState) (m : Metadata) (ok : Bool)
    (hm : Ev.uploadMetadata m ok ∈ (processFile sid file S f st).2) :
    m.Chunks.map ChunkMeta.Index = succUploadIdxs (processFile sid file S f st).2 ∧
    m.TotalSize = (succUploadLens (processFile sid file S f st).2).sum := by
  match file with
  | none =>
    have h : processFile sid none S f st = (st, []) := by
      simp [processFile, fileHash]
    rw [h] at hm
    simp at hm
  | some d =>
    by_cases hskip :
        (if f.getValueErr then "" else (GetValue st.kv (hashKey sid)).1) = fileHash (some d)
        ∧ (if f.getStatusErr then "" else (GetStreamStatus st.kv sid).1) = "completed"
    · rw [processFile_skip sid d S f st hskip] at hm
      simp at hm
    · by_cases hopen : f.chunkOpenErr = true
      · rw [processFile_openErr sid d S f st hskip hopen] at hm
        exact absurd hm (preLoop_evs_noMeta sid f st _ _ _ m ok)
      · rw [processFile_eq_finishRun sid d S f st hskip (Bool.not_eq_true _ |>.mp hopen)] at hm ⊢
        obtain ⟨hp1, hp2⟩ := preLoop_succIdxs_nil sid f st
          (if f.getValueErr then "" else (GetValue st.kv (hashKey sid)).1)
          (fileHash (some d)) (!f.setHashErr)
        exact finishRun_metadata sid f d S _ _ m ok hp1 hp2
          (preLoop_evs_noMeta sid f st _ _ _) hm

/-- Witness for `metadata_lists_only_uploaded`: an 8-byte file in 4-byte
chunks with chunk 1 already checkpointed uploads only chunk 0, and the
metadata lists index 0 with `total_size` 4 — not the file size 8. -/
theorem metadata_lists_only_uploaded_witness :
    Ev.uploadMetadata ⟨4, [⟨0, sha256hex [1, 2, 3, 4]⟩]⟩ true
        ∈ (processFile "v.mp4" (some [1, 2, 3, 4, 5, 6, 7, 8]) 4 Faults.noFaults
            chunk1DoneState).2 ∧
    ((⟨4, [⟨0, sha256hex [1, 2, 3, 4]⟩]⟩ : Metadata).Chunks.map ChunkMeta.Index
        = succUploadIdxs (processFile "v.mp4" (some [1, 2, 3, 4, 5, 6, 7, 8]) 4
            Faults.noFaults chunk1DoneState).2 ∧
     (⟨4, [⟨0, sha256hex [1, 2, 3, 4]⟩]⟩ : Metadata).TotalSize
        = (succUploadLens (processFile "v.mp4" (some [1, 2, 3, 4, 5, 6, 7, 8]) 4
            Faults.noFaults chunk1DoneState).2).sum) :=
  ⟨by decide,
   metadata_lists_only_uploaded "v.mp4" (some [1, 2, 3, 4, 5, 6, 7, 8]) 4 Faults.noFaults
     chunk1DoneState ⟨4, [⟨0, sha256hex [1, 2, 3, 4]⟩]⟩ true (by decide)⟩

/-- C7 counterexample: on the empty store, `GetValue` of an absent key
returns the empty string together with the `redis.Nil` error, not a nil
error; the same holds for `GetStreamStatus`. -/
theorem absent_key_lookup_counterexample :
    kvGet [] (hashKey "v.mp4") = none ∧
    (GetValue [] (hashKey "v.mp4")).2 ≠ none ∧
    kvGet [] (statusKey "v.mp4") = none ∧
    (GetStreamStatus [] "v.mp4").2 ≠ none := by
  refine ⟨rfl, ?_, rfl, ?_⟩ <;> simp [GetValue, GetStreamStatus, redisGetResult, kvGet]

/-- C7 (amended): on an absent key, `IsChunkUploaded` returns `(false, nil)`,
while `GetValue` and `GetStreamStatus` return the empty string paired with
the `redis.Nil` key-missing error (which their in-repo callers discard). -/
theorem absent_key_lookup (kv : List (String × String)) (key sid : String) (i : Nat)
    (hk : kvGet kv key = none) (hs : kvGet kv (statusKey sid) = none)
    (hc : kvGet kv (chunkKey sid i) = none) :
    GetValue kv key = ("", some RedisErr.nil) ∧
    GetStreamStatus kv sid = ("", some RedisErr.nil) ∧
    IsChunkUploaded kv sid i = (false, none) := by
  refine ⟨?_, ?_, ?_⟩ <;>
    simp [GetValue, GetStreamStatus, IsChunkUploaded, redisGetResult, hk, hs, hc]

/-- Witness for `absent_key_lookup` on the empty store. -/
theorem absent_key_lookup_witness :
    (kvGet [] "file_hash:v.mp4" = none ∧
     kvGet [] (statusKey "v.mp4") = none ∧
     kvGet [] (chunkKey "v.mp4" 0) = none) ∧
    (GetValue [] "file_hash:v.mp4" = ("", some RedisErr.nil) ∧
     GetStreamStatus [] "v.mp4" = ("", some RedisErr.nil) ∧
     IsChunkUploaded [] "v.mp4" 0 = (false, none)) :=
  ⟨⟨rfl, rfl, rfl⟩, absent_key_lookup [] "file_hash:v.mp4" "v.mp4" 0 rfl rfl rfl⟩

/-- While the stored fingerprint equals the live one and the status is
completed, `filterFile` suppresses the path. -/
theorem filterFile_suppresses (kv : List (String × String))
    (fs : String → Option (List Nat)) (path : String)
    (h1 : kvGet kv (hashKey (basename path)) = some (fileHash (fs path)))
    (h2 : kvGet kv (statusKey (basename path)) = some "completed") :
    filterFile kv fs path = false := by
  simp [filterFile, GetValue, GetStreamStatus, redisGetResult, h1, h2]

/-- C5: a stable candidate whose stored `file_hash` equals its current
fingerprint and whose stream status is `"completed"` is emitted zero times
by the detector tick, whatever the rest of the `seen` map holds. -/
theorem detector_suppresses_completed (kv : List (String × String))
    (fs : String → Option (List Nat)) (formats : List String)
    (debounce now : Nat) (seen : List (String × Nat)) (path : String)
    (h1 : kvGet kv (hashKey (basename path)) = some (fileHash (fs path)))
    (h2 : kvGet kv (statusKey (basename path)) = some "completed") :
    path ∉ (checkStableFiles kv fs formats debounce now seen).1 := by
  have hf := filterFile_suppresses kv fs path h1 h2
  induction seen with
  | nil => simp [checkStableFiles]
  | cons hd rest ih =>
    obtain ⟨file, last⟩ := hd
    simp only [checkStableFiles]
    by_cases ht : debounce < now - last
    · rw [if_pos ht]
      by_cases hemit : (isAllowedExt file formats && filterFile kv fs file) = true
      · rw [if_pos hemit]
        intro hmem
        rcases List.mem_cons.mp hmem with he | he
        · rw [← he] at hemit
          rw [hf] at hemit
          simp at hemit
        · exact ih he
      · rw [if_neg hemit]
        exact ih
    · rw [if_neg ht]
      exact ih

/-- Witness for `detector_suppresses_completed`: a quiescent, allowed,
already-completed candidate is not emitted. -/
theorem detector_suppresses_completed_witness :
    (kvGet completedWatchState (hashKey (basename "in/v.mp4"))
        = some (fileHash (completedWatchFs "in/v.mp4")) ∧
     kvGet completedWatchState (statusKey (basename "in/v.mp4")) = some "completed") ∧
    "in/v.mp4" ∉ (checkStableFiles completedWatchState completedWatchFs [".mp4"] 2 5
        [("in/v.mp4", 0)]).1 :=
  ⟨⟨by decide, by decide⟩,
   detector_suppresses_completed completedWatchState completedWatchFs [".mp4"] 2 5
     [("in/v.mp4", 0)] "in/v.mp4" (by decide) (by decide)⟩

end VSP

